import Mathlib

/-!
Verification development for the MuSyCoS steady-state enumeration tool.

The repository source under scrutiny is `src/main.cpp`.  The model-parsing
entry points (`parseModel`, `obtainModel`) are translated from that file.
The constraint-solving classes (`SteadySpace`, `SpaceSolver`) are declared
in headers (`constraints/steady_space.hpp`, `constraints/space_solver.hpp`)
that are not part of the available sources; every definition that stands in
for them is marked `Modelled from the spec:` and follows the specification
of the steady-state space engine (bounded species domains, per-species
rules, lexicographic backtracking enumeration with constraint propagation,
resumable `next()` that signals exhaustion by an empty result).
-/

namespace MuSyCoS

/-- Modelled from the spec: a regulatory rule of one species (the class is
declared in the missing model headers).  A rule carries the ordered list of
its regulators' indices and a total mapping from the tuple of regulator
values to the target value of the regulated species. -/
structure Rule where
  regs : List Nat
  target : List Int → Int

/-- Modelled from the spec: one species of the model (class `Specie` of the
missing model headers, used by `main.cpp`).  It has a name, the upper bound
`max_val` of its closed integer domain `[0, max_val]`, and its rule. -/
structure Specie where
  name : String
  max_val : Int
  rule : Rule

instance : Inhabited Specie := ⟨⟨"", 0, ⟨[], fun _ => 0⟩⟩⟩

/-- Modelled from the spec: the model object (class `Model` of the missing
model headers): a name, the ordered species list and the global maximum
`max_value` over the species' `max_val` fields computed by `parseModel`. -/
structure Model where
  name : String
  species : List Specie
  max_value : Int

/-- Values of the regulators of rule `r` read from configuration `c`
(out-of-range reads default to 0, as the loader guarantees they never
happen for well-formed models). -/
def regValues (r : Rule) (c : List Int) : List Int :=
  r.regs.map (fun i => c.getD i 0)

/-- Does configuration `c` satisfy the rule of species `sp` sitting at
index `s`: the value `c` assigns to `s` equals the rule's target on the
regulator values taken from `c`. -/
def ruleHolds (sp : Specie) (s : Nat) (c : List Int) : Bool :=
  c.getD s 0 == sp.rule.target (regValues sp.rule c)

/-- Configuration `c` is a steady state of model `m`: every species' rule
reproduces the value `c` assigns to that species. -/
def isSteady (m : Model) (c : List Int) : Bool :=
  m.species.enum.all (fun q => ruleHolds q.2 q.1 c)

/-- Modelled from the spec: the three-valued rule evaluation of the
Constraint Applier, specialised to a partial configuration `p` that
assigns the first `p.length` species.  The rule of species `s` is
conclusively evaluable iff `s` itself and all its regulators are already
assigned; `detViolated` holds iff some conclusively evaluable rule is
violated by `p`. -/
def ruleDetermined (sp : Specie) (s : Nat) (k : Nat) : Bool :=
  decide (s < k) && sp.rule.regs.all (fun r => decide (r < k))

/-- Modelled from the spec: does some rule whose species and regulators are
all assigned by the partial configuration `p` evaluate to "violated". -/
def detViolated (m : Model) (p : List Int) : Bool :=
  m.species.enum.any (fun q => ruleDetermined q.2 q.1 p.length && ! ruleHolds q.2 q.1 p)

/-- Increasing enumeration of the admissible value set `[0, b]` of one
species (empty when `b < 0`). -/
def intRange (b : Int) : List Int :=
  (List.range (b + 1).toNat).map (fun k : Nat => (k : Int))

/-- All configurations over the per-species ceilings `bounds`, in
lexicographic order by species index (index 0 most significant), values
tried in increasing numeric order. -/
def allConfigs : List Int → List (List Int)
  | [] => [[]]
  | b :: bs => (intRange b).flatMap (fun v => (allConfigs bs).map (fun c => v :: c))

/-- Modelled from the spec: the backtracking search of the Search
Enumerator.  Species are assigned in index order; at each level every
value of the admissible set is tried in increasing order; after a
tentative assignment every conclusively evaluable rule is checked and a
violated rule prunes the whole subtree; at a full assignment the
configuration is emitted iff every rule is satisfied.  `search m p bs`
extends the partial configuration `p` through the remaining ceilings
`bs`. -/
def search (m : Model) : List Int → List Int → List (List Int)
  | p, [] => if isSteady m p then [p] else []
  | p, b :: bs =>
    (intRange b).flatMap (fun v =>
      if detViolated m (p ++ [v]) then [] else search m (p ++ [v]) bs)

/-- Modelled from the spec: the solver object (`SpaceSolver<SteadySpace>` of
the missing headers).  The saved backtracking frontier is abstracted by the
sequence of configurations the resumed search will still produce; the
observable behaviour of `next()` is unchanged by this abstraction. -/
structure SpaceSolver where
  remaining : List (List Int)

/-- Modelled from the spec: one `next()` call.  It returns the next steady
state, or the empty vector once the search space is exhausted — exhaustion
is signalled on the normal return channel, never as an error. -/
def SpaceSolver.next (s : SpaceSolver) : List Int × SpaceSolver :=
  match s.remaining with
  | [] => ([], ⟨[]⟩)
  | c :: rest => (c, ⟨rest⟩)

/-- State of the solver after `k` calls to `next()`. -/
def SpaceSolver.stateAfter (s : SpaceSolver) : Nat → SpaceSolver
  | 0 => s
  | k + 1 => (s.stateAfter k).next.2

/-- Result of the `(k+1)`-st call to `next()` (0-indexed). -/
def SpaceSolver.outputAt (s : SpaceSolver) (k : Nat) : List Int :=
  ((s.stateAfter k).next).1

/-- Results of the first `k` calls to `next()`, in call order. -/
def SpaceSolver.produced (s : SpaceSolver) (k : Nat) : List (List Int) :=
  (List.range k).map s.outputAt

/-- Modelled from the spec: `boundSpecie` of `SteadySpace` — restrict the
admissible values of species `i` to at most the ceiling `b` (a
tightening-only override of the current ceiling). -/
def boundSpecie (bounds : List Int) (i : Nat) (b : Int) : List Int :=
  bounds.set i (min (bounds.getD i 0) b)

/-- Modelled from the spec: the bounding loop of `solveSteadyStates`
(`main.cpp` lines 46–47): `boundSpecie i species[i].max_val` for each
species in index order. -/
def applyBoundsLoop : List Int → Nat → List Specie → List Int
  | bounds, _, [] => bounds
  | bounds, i, sp :: rest => applyBoundsLoop (boundSpecie bounds i sp.max_val) (i + 1) rest

/-- Modelled from the spec: the per-species ceilings of the solver built by
`solveSteadyStates` (`main.cpp` lines 45–47): every domain starts as
`[0, max_value]` and is then tightened to the species' own `max_val`. -/
def initBounds (m : Model) : List Int :=
  applyBoundsLoop (List.replicate m.species.length m.max_value) 0 m.species

/-- Modelled from the spec: the fully initialised solver of
`solveSteadyStates` (`main.cpp` lines 45–48), ready to produce steady
states through `next()`. -/
def initSolver (m : Model) : SpaceSolver :=
  ⟨search m [] (initBounds m)⟩

/-- Modelled from the spec: the error message naming the offending species
when a bound restriction empties its admissible set. -/
def emptyDomainMsg (i : Nat) : String :=
  "The admissible value set of species " ++ toString i ++ " is empty"

/-- Modelled from the spec: the Bound Manager contract — restricting a
species whose admissible set would become empty is reported as an error
naming the species, never silently ignored. -/
def boundSpecieChecked (bounds : List Int) (i : Nat) (b : Int) : Except String (List Int) :=
  if min (bounds.getD i 0) b < 0 then Except.error (emptyDomainMsg i)
  else Except.ok (bounds.set i (min (bounds.getD i 0) b))

/-- Modelled from the spec: the bounding loop run through the checked Bound
Manager; it stops at the first species whose admissible set becomes
empty. -/
def applyBoundsChecked : List Int → Nat → List Specie → Except String (List Int)
  | bounds, _, [] => Except.ok bounds
  | bounds, i, sp :: rest =>
    match boundSpecieChecked bounds i sp.max_val with
    | Except.error e => Except.error e
    | Except.ok bs => applyBoundsChecked bs (i + 1) rest

/-- Modelled from the spec: solver initialisation with the checked Bound
Manager — an empty admissible set is reported to the caller immediately
and no search state is constructed. -/
def initSolverChecked (m : Model) : Except String SpaceSolver :=
  (applyBoundsChecked (List.replicate m.species.length m.max_value) 0 m.species).map
    (fun bounds => ⟨search m [] bounds⟩)

/-- Modelled from the spec: the first element returned by
`std::max_element` over the species, compared by `max_val` (`main.cpp`
line 17); `none` on an empty species list, where the C++ iterator
dereference would be invalid. -/
def maxElement : List Specie → Option Specie
  | [] => none
  | s :: rest => some (rest.foldl (fun a t => if a.max_val < t.max_val then t else a) s)

/-- Translation of `parseModel` (`main.cpp` lines 8–20): build the species
list from the rule lines via the external parser `obtainSpecie`, then set
`max_value` to the `max_val` of the `max_element` of the species.  The
result is `none` exactly when the species list is empty and the
`max_element` dereference would be undefined. -/
def parseModel (obtainSpecie : String → Specie) (model_content : List String) : Option Model :=
  (maxElement (model_content.map obtainSpecie)).map
    (fun best => { name := "", species := model_content.map obtainSpecie, max_value := best.max_val })

/-- Translation of `obtainModel` (`main.cpp` lines 23–33): the file content
(read by the external `ModelParsers::readModel`) is sorted lexicographically
by `rng::sort` before `parseModel` runs, and the model is named after the
file stem. -/
def obtainModel (obtainSpecie : String → Specie) (stem : String) (model_content : List String) : Option Model :=
  (parseModel obtainSpecie (List.insertionSort (fun a b => a ≤ b) model_content)).map
    (fun m => { m with name := stem })

/-- Follows the spec's words (§3): the domain of a species is the closed
integer interval `[0, max_val]`, so its size — the number of values in
it — is `max_val + 1`.  This definition exists to compare the spec's
description of `Model.max_value` with what the code computes. -/
def specDomainSize (s : Specie) : Int :=
  s.max_val + 1

/-- Mirror-rule example model of the spec (§8): two Boolean species, each
copying the other's value. -/
def exModel : Model :=
  ⟨"mirror", [⟨"A", 1, ⟨[1], fun vs => vs.getD 0 0⟩⟩, ⟨"B", 1, ⟨[0], fun vs => vs.getD 0 0⟩⟩], 1⟩

/-- Unsatisfiable example model: one species with domain `[0, 0]` whose
rule forces the out-of-range value 1. -/
def exUnsat : Model :=
  ⟨"unsat", [⟨"A", 0, ⟨[], fun _ => 1⟩⟩], 0⟩

/-- Infeasible example model: one species whose declared ceiling `-1`
empties its admissible set. -/
def exInfeasible : Model :=
  ⟨"neg", [⟨"A", -1, ⟨[], fun _ => 0⟩⟩], 0⟩

/-- Example external line parser for the model-building claims: every rule
line becomes a species named by the line, with domain `[0, 1]`. -/
def exObtain : String → Specie :=
  fun n => ⟨n, 1, ⟨[], fun _ => 0⟩⟩

lemma mem_intRange {v b : Int} : v ∈ intRange b ↔ 0 ≤ v ∧ v ≤ b := by
  unfold intRange
  rw [List.mem_map]
  constructor
  · rintro ⟨k, hk, rfl⟩
    rw [List.mem_range] at hk
    have hlt : (k : Int) < b + 1 := Int.lt_toNat.mp hk
    exact ⟨Int.natCast_nonneg k, by omega⟩
  · rintro ⟨h0, hb⟩
    refine ⟨v.toNat, ?_, Int.toNat_of_nonneg h0⟩
    rw [List.mem_range]
    apply Int.lt_toNat.mpr
    rw [Int.toNat_of_nonneg h0]
    omega

lemma ruleHolds_append {sp : Specie} {s : Nat} {p w : List Int}
    (hs : s < p.length) (hr : ∀ r ∈ sp.rule.regs, r < p.length) :
    ruleHolds sp s (p ++ w) = ruleHolds sp s p := by
  have hmap : sp.rule.regs.map (fun i => (p ++ w).getD i 0)
      = sp.rule.regs.map (fun i => p.getD i 0) :=
    List.map_congr_left (fun r hrr => List.getD_append p w 0 r (hr r hrr))
  unfold ruleHolds regValues
  rw [List.getD_append p w 0 s hs, hmap]

lemma detViolated_extend {m : Model} {p w : List Int} (h : detViolated m p = true) :
    isSteady m (p ++ w) = false := by
  unfold detViolated at h
  rw [List.any_eq_true] at h
  obtain ⟨q, hq, hcond⟩ := h
  rw [Bool.and_eq_true] at hcond
  obtain ⟨hdet, hviol⟩ := hcond
  unfold ruleDetermined at hdet
  rw [Bool.and_eq_true] at hdet
  obtain ⟨hs, hregs⟩ := hdet
  rw [List.all_eq_true] at hregs
  have hs2 : q.1 < p.length := of_decide_eq_true hs
  have hregs2 : ∀ r ∈ q.2.rule.regs, r < p.length :=
    fun r hrr => of_decide_eq_true (hregs r hrr)
  apply Bool.eq_false_iff.mpr
  intro hall
  unfold isSteady at hall
  rw [List.all_eq_true] at hall
  have hgood := hall q hq
  rw [ruleHolds_append hs2 hregs2] at hgood
  rw [hgood] at hviol
  exact absurd hviol (by simp)

lemma search_eq_filter (m : Model) (bs : List Int) : ∀ p : List Int,
    search m p bs = ((allConfigs bs).map (fun c => p ++ c)).filter (isSteady m) := by
  induction bs with
  | nil =>
    intro p
    simp only [search, allConfigs, List.map_cons, List.map_nil, List.append_nil]
    rw [List.filter]
    cases h : isSteady m p <;> simp [List.filter]
  | cons b bs ih =>
    intro p
    rw [show allConfigs (b :: bs)
        = (intRange b).flatMap (fun v => (allConfigs bs).map (fun c => v :: c)) from rfl]
    rw [show search m p (b :: bs) = (intRange b).flatMap (fun v =>
        if detViolated m (p ++ [v]) then [] else search m (p ++ [v]) bs) from rfl]
    rw [List.map_flatMap, List.filter_flatMap]
    apply congrArg
    funext v
    have hmm : List.map (fun c => p ++ c) (List.map (fun c => v :: c) (allConfigs bs))
        = List.map (fun c => (p ++ [v]) ++ c) (allConfigs bs) := by
      rw [List.map_map]
      apply List.map_congr_left
      intro c _
      simp [List.append_assoc]
    rw [hmm]
    by_cases hviol : detViolated m (p ++ [v]) = true
    · rw [if_pos hviol]
      symm
      apply List.filter_eq_nil_iff.mpr
      intro a ha
      rw [List.mem_map] at ha
      obtain ⟨c, _, rfl⟩ := ha
      rw [detViolated_extend hviol]
      simp
    · rw [if_neg hviol]
      exact ih (p ++ [v])

lemma solutions_eq_filter (m : Model) (bs : List Int) :
    search m [] bs = (allConfigs bs).filter (isSteady m) := by
  rw [search_eq_filter m bs []]
  simp

lemma mem_allConfigs : ∀ (bs c : List Int),
    c ∈ allConfigs bs ↔ List.Forall₂ (fun v b => 0 ≤ v ∧ v ≤ b) c bs := by
  intro bs
  induction bs with
  | nil =>
    intro c
    simp [allConfigs, List.forall₂_nil_right_iff]
  | cons b bs ih =>
    intro c
    rw [show allConfigs (b :: bs)
        = (intRange b).flatMap (fun v => (allConfigs bs).map (fun w => v :: w)) from rfl]
    simp only [List.mem_flatMap, List.mem_map, List.forall₂_cons_right_iff]
    constructor
    · rintro ⟨v, hv, w, hw, rfl⟩
      exact ⟨v, w, mem_intRange.mp hv, (ih w).mp hw, rfl⟩
    · rintro ⟨v, w, hvb, hw, rfl⟩
      exact ⟨v, mem_intRange.mpr hvb, w, (ih w).mpr hw, rfl⟩

lemma pairwise_flatMap {α β : Type} {R : α → α → Prop} {f : β → List α} :
    ∀ {l : List β}, (∀ x ∈ l, (f x).Pairwise R) →
    l.Pairwise (fun x y => ∀ a ∈ f x, ∀ c ∈ f y, R a c) →
    (l.flatMap f).Pairwise R := by
  intro l
  induction l with
  | nil => intro _ _; simp
  | cons x l ih =>
    intro hin hpw
    rw [List.flatMap_cons, List.pairwise_append]
    rw [List.pairwise_cons] at hpw
    refine ⟨hin x (List.mem_cons_self x l), ih (fun y hy => hin y (List.mem_cons_of_mem x hy)) hpw.2, ?_⟩
    intro a ha c hc
    rw [List.mem_flatMap] at hc
    obtain ⟨y, hy, hcy⟩ := hc
    exact hpw.1 y hy a ha c hcy

lemma intRange_pairwise (b : Int) : (intRange b).Pairwise (fun x y => x < y) := by
  unfold intRange
  rw [List.pairwise_map]
  exact (List.pairwise_lt_range _).imp (fun h => Int.ofNat_lt.mpr h)

lemma allConfigs_pairwise : ∀ bs : List Int,
    (allConfigs bs).Pairwise (List.Lex (· < ·)) := by
  intro bs
  induction bs with
  | nil => simp [allConfigs]
  | cons b bs ih =>
    apply pairwise_flatMap
    · intro v _
      rw [List.pairwise_map]
      exact ih.imp (fun h => List.Lex.cons h)
    · refine (intRange_pairwise b).imp ?_
      intro x y hxy a ha c hc
      rw [List.mem_map] at ha hc
      obtain ⟨a0, _, rfl⟩ := ha
      obtain ⟨c0, _, rfl⟩ := hc
      exact List.Lex.rel hxy

lemma allConfigs_nodup (bs : List Int) : (allConfigs bs).Nodup :=
  (allConfigs_pairwise bs).imp (fun h heq => absurd (heq ▸ h) (irrefl _))

lemma flatMap_sublist {α β : Type} {f g : β → List α} (hfg : ∀ x, (f x).Sublist (g x)) :
    ∀ {l1 l2 : List β}, l1.Sublist l2 → (l1.flatMap f).Sublist (l2.flatMap g) := by
  intro l1 l2 h
  induction h with
  | slnil => simp
  | cons a h ih =>
    rw [List.flatMap_cons]
    exact ih.trans (List.sublist_append_right _ _)
  | cons₂ a h ih =>
    rw [List.flatMap_cons, List.flatMap_cons]
    exact (hfg a).append ih

lemma intRange_sublist {a b : Int} (h : a ≤ b) : (intRange a).Sublist (intRange b) :=
  List.Sublist.map _ (List.range_sublist.mpr (Int.toNat_le_toNat (by omega)))

lemma allConfigs_sublist : ∀ {bs1 bs2 : List Int}, List.Forall₂ (· ≤ ·) bs1 bs2 →
    (allConfigs bs1).Sublist (allConfigs bs2) := by
  intro bs1 bs2 h
  induction h with
  | nil => simp
  | cons hab h2 ih =>
    exact flatMap_sublist (fun v => List.Sublist.map _ ih) (intRange_sublist hab)

lemma boundSpecie_le (bounds : List Int) (i : Nat) (b : Int) :
    List.Forall₂ (fun x y => x ≤ y) (boundSpecie bounds i b) bounds := by
  rw [List.forall₂_iff_get]
  refine ⟨by simp [boundSpecie], ?_⟩
  intro k h1 h2
  simp only [boundSpecie, List.get_eq_getElem]
  rw [List.getElem_set]
  split
  · next heq =>
    subst heq
    rw [List.getD_eq_getElem _ _ h2]
    exact min_le_left _ _
  · exact le_refl _

lemma forall₂_getD {R : Int → Int → Prop} {c bs : List Int} (h : List.Forall₂ R c bs)
    {i : Nat} (hi : i < bs.length) : R (c.getD i 0) (bs.getD i 0) := by
  rw [List.forall₂_iff_get] at h
  obtain ⟨hlen, hget⟩ := h
  have hic : i < c.length := by omega
  rw [List.getD_eq_getElem _ _ hic, List.getD_eq_getElem _ _ hi]
  simpa using hget i hic hi

lemma next_fst (l : List (List Int)) : (SpaceSolver.mk l).next.1 = l.headD [] := by
  cases l <;> rfl

lemma next_snd (l : List (List Int)) : (SpaceSolver.mk l).next.2 = ⟨l.tail⟩ := by
  cases l <;> rfl

lemma headD_drop {α : Type} (d : α) : ∀ (l : List α) (j : Nat), (l.drop j).headD d = l.getD j d := by
  intro l
  induction l with
  | nil => intro j; simp
  | cons a t ih =>
    intro j
    cases j with
    | zero => rfl
    | succ j => rw [List.drop_succ_cons, List.getD_cons_succ]; exact ih j

lemma stateAfter_eq (s : SpaceSolver) : ∀ k : Nat, s.stateAfter k = ⟨s.remaining.drop k⟩ := by
  intro k
  induction k with
  | zero => rfl
  | succ k ih =>
    rw [show s.stateAfter (k + 1) = (s.stateAfter k).next.2 from rfl, ih, next_snd,
      List.tail_drop]

lemma outputAt_eq (s : SpaceSolver) (k : Nat) : s.outputAt k = s.remaining.getD k [] := by
  rw [SpaceSolver.outputAt, stateAfter_eq, next_fst, headD_drop]

lemma produced_eq_take (s : SpaceSolver) : ∀ k : Nat, k ≤ s.remaining.length →
    s.produced k = s.remaining.take k := by
  intro k
  induction k with
  | zero => intro _; simp [SpaceSolver.produced]
  | succ k ih =>
    intro hk
    rw [SpaceSolver.produced, List.range_succ, List.map_append, List.map_cons, List.map_nil]
    rw [show (List.range k).map s.outputAt = s.produced k from rfl, ih (by omega)]
    rw [List.take_succ]
    congr 1
    rw [outputAt_eq, List.getElem?_eq_getElem (show k < s.remaining.length by omega)]
    rw [List.getD_eq_getElem _ _ (show k < s.remaining.length by omega)]
    rfl

lemma getD_set_ne {l : List Int} {i j : Nat} {v : Int} (h : i ≠ j) :
    (l.set i v).getD j 0 = l.getD j 0 := by
  rw [List.getD_eq_getElem?_getD, List.getD_eq_getElem?_getD, List.getElem?_set, if_neg h]

lemma foldl_max_spec : ∀ (l : List Specie) (a r : Specie),
    l.foldl (fun x t => if x.max_val < t.max_val then t else x) a = r →
    (r = a ∨ r ∈ l) ∧ a.max_val ≤ r.max_val ∧ ∀ s ∈ l, s.max_val ≤ r.max_val := by
  intro l
  induction l with
  | nil =>
    intro a r h
    rw [List.foldl_nil] at h
    subst h
    exact ⟨Or.inl rfl, le_refl _, by simp⟩
  | cons t rest ih =>
    intro a r h
    rw [List.foldl_cons] at h
    by_cases hc : a.max_val < t.max_val
    · rw [if_pos hc] at h
      obtain ⟨hmem, hle, hall⟩ := ih t r h
      refine ⟨Or.inr ?_, le_of_lt (lt_of_lt_of_le hc hle), ?_⟩
      · cases hmem with
        | inl he => rw [he]; exact List.mem_cons_self _ _
        | inr hm => exact List.mem_cons_of_mem _ hm
      · intro s hs
        cases List.mem_cons.mp hs with
        | inl he => rw [he]; exact hle
        | inr hm => exact hall s hm
    · rw [if_neg hc] at h
      obtain ⟨hmem, hle, hall⟩ := ih a r h
      push_neg at hc
      refine ⟨?_, hle, ?_⟩
      · cases hmem with
        | inl he => exact Or.inl he
        | inr hm => exact Or.inr (List.mem_cons_of_mem _ hm)
      · intro s hs
        cases List.mem_cons.mp hs with
        | inl he => rw [he]; exact le_trans hc hle
        | inr hm => exact hall s hm

lemma maxElement_spec {l : List Specie} {sp : Specie} (h : maxElement l = some sp) :
    sp ∈ l ∧ ∀ s ∈ l, s.max_val ≤ sp.max_val := by
  cases l with
  | nil => exact absurd h (by simp [maxElement])
  | cons a rest =>
    rw [maxElement] at h
    have h2 := Option.some.inj h
    obtain ⟨hmem, hle, hall⟩ := foldl_max_spec rest a sp h2
    constructor
    · cases hmem with
      | inl he => rw [he]; exact List.mem_cons_self _ _
      | inr hm => exact List.mem_cons_of_mem _ hm
    · intro s hs
      cases List.mem_cons.mp hs with
      | inl he => rw [he]; exact hle
      | inr hm => exact hall s hm

lemma parseModel_some (f : String → Specie) (content : List String) (h : content ≠ []) :
    ∃ m0, parseModel f content = some m0 ∧ m0.species = content.map f := by
  cases content with
  | nil => exact absurd rfl h
  | cons a rest => exact ⟨_, rfl, rfl⟩

lemma applyBoundsChecked_error : ∀ (sps : List Specie) (bounds : List Int) (i0 j : Nat),
    j < sps.length →
    min (bounds.getD (i0 + j) 0) ((sps.getD j default).max_val) < 0 →
    (∀ k, k < j → 0 ≤ min (bounds.getD (i0 + k) 0) ((sps.getD k default).max_val)) →
    applyBoundsChecked bounds i0 sps = Except.error (emptyDomainMsg (i0 + j)) := by
  intro sps
  induction sps with
  | nil =>
    intro bounds i0 j hj _ _
    exact absurd hj (by simp)
  | cons sp rest ih =>
    intro bounds i0 j hj hempty hfirst
    cases j with
    | zero =>
      rw [Nat.add_zero] at hempty ⊢
      rw [show ((sp :: rest).getD 0 default) = sp from rfl] at hempty
      rw [show applyBoundsChecked bounds i0 (sp :: rest)
          = (match boundSpecieChecked bounds i0 sp.max_val with
            | Except.error e => Except.error e
            | Except.ok bs => applyBoundsChecked bs (i0 + 1) rest) from rfl]
      rw [boundSpecieChecked, if_pos hempty]
    | succ j =>
      have h0 : 0 ≤ min (bounds.getD i0 0) sp.max_val := by
        have hx := hfirst 0 (Nat.succ_pos j)
        rwa [Nat.add_zero] at hx
      rw [show applyBoundsChecked bounds i0 (sp :: rest)
          = (match boundSpecieChecked bounds i0 sp.max_val with
            | Except.error e => Except.error e
            | Except.ok bs => applyBoundsChecked bs (i0 + 1) rest) from rfl]
      rw [boundSpecieChecked, if_neg (by omega)]
      have hempty2 : min ((bounds.set i0 (min (bounds.getD i0 0) sp.max_val)).getD (i0 + 1 + j) 0)
          ((rest.getD j default).max_val) < 0 := by
        rw [getD_set_ne (by omega)]
        have hidx : i0 + 1 + j = i0 + (j + 1) := by omega
        rw [hidx]
        exact hempty
      have hfirst2 : ∀ k, k < j →
          0 ≤ min ((bounds.set i0 (min (bounds.getD i0 0) sp.max_val)).getD (i0 + 1 + k) 0)
            ((rest.getD k default).max_val) := by
        intro k hk
        rw [getD_set_ne (by omega)]
        have hidx : i0 + 1 + k = i0 + (k + 1) := by omega
        rw [hidx]
        exact hfirst (k + 1) (by omega)
      have hres := ih (bounds.set i0 (min (bounds.getD i0 0) sp.max_val)) (i0 + 1) j
        (by simpa using hj) hempty2 hfirst2
      have hidx : i0 + 1 + j = i0 + (j + 1) := by omega
      rw [← hidx]
      exact hres

/-- C1: Soundness of enumeration — every nonempty configuration returned
by the solver's `next()` operation (the result of the `(k+1)`-st call on
the solver initialised from the model, for any `k`) is a true fixed point
of the model: `isSteady` holds, i.e. for every species the rule evaluated
on the configuration's regulator values equals the value the configuration
assigns to that species. -/
theorem next_soundness (m : Model) (k : Nat)
    (h : (initSolver m).outputAt k ≠ []) :
    isSteady m ((initSolver m).outputAt k) = true := by
  rw [outputAt_eq] at h ⊢
  by_cases hk : k < (initSolver m).remaining.length
  · rw [List.getD_eq_getElem _ _ hk] at h ⊢
    have hmem : (initSolver m).remaining[k] ∈ (initSolver m).remaining :=
      List.getElem_mem hk
    have hmem2 : (initSolver m).remaining[k] ∈ (allConfigs (initBounds m)).filter (isSteady m) := by
      rw [← solutions_eq_filter]
      exact hmem
    exact (List.mem_filter.mp hmem2).2
  · exact absurd (List.getD_eq_default _ _ (by omega)) h

/-- Witness for C1 at the spec's mirror example: the first `next()` result
is nonempty and is a steady state. -/
theorem next_soundness_holds :
    (initSolver exModel).outputAt 0 ≠ [] ∧
      isSteady exModel ((initSolver exModel).outputAt 0) = true :=
  ⟨by decide, next_soundness exModel 0 (by decide)⟩

/-- C2: Completeness of enumeration — the sequence of configurations the
solver produces over the whole run of `next()` calls until exhaustion is
exactly its `remaining` list; a configuration belongs to it iff it
satisfies every species' admissible bound (the model-initialised ceilings)
and every species' rule; and it contains no duplicate, so every steady
state is produced exactly once and none is missed. -/
theorem next_completeness (m : Model) :
    (initSolver m).produced (initSolver m).remaining.length = (initSolver m).remaining ∧
    (∀ c, c ∈ (initSolver m).remaining ↔
      (List.Forall₂ (fun v b => 0 ≤ v ∧ v ≤ b) c (initBounds m) ∧ isSteady m c = true)) ∧
    (initSolver m).remaining.Nodup := by
  refine ⟨?_, ?_, ?_⟩
  · rw [produced_eq_take _ _ (le_refl _), List.take_length]
  · intro c
    rw [show (initSolver m).remaining = search m [] (initBounds m) from rfl,
      solutions_eq_filter, List.mem_filter, mem_allConfigs]
  · rw [show (initSolver m).remaining = search m [] (initBounds m) from rfl,
      solutions_eq_filter]
    exact (allConfigs_nodup _).filter _

/-- C3: Ordering of enumeration — any prefix of the sequence of
configurations produced by successive `next()` calls (before exhaustion)
is in non-decreasing lexicographic order of the species value assignment
by species index. -/
theorem next_ordering (m : Model) (k : Nat) (hk : k ≤ (initSolver m).remaining.length) :
    ((initSolver m).produced k).Pairwise (fun c d => c = d ∨ List.Lex (· < ·) c d) := by
  rw [produced_eq_take _ _ hk]
  have h1 : ((initSolver m).remaining).Pairwise (List.Lex (· < ·)) := by
    rw [show (initSolver m).remaining = search m [] (initBounds m) from rfl,
      solutions_eq_filter]
    exact List.Pairwise.sublist (List.filter_sublist _) (allConfigs_pairwise _)
  exact (List.Pairwise.sublist (List.take_sublist _ _) h1).imp (fun h => Or.inr h)

/-- Witness for C3 at the spec's mirror example: the two produced
configurations are in non-decreasing lexicographic order. -/
theorem next_ordering_holds :
    ((initSolver exModel).produced 2).Pairwise (fun c d => c = d ∨ List.Lex (· < ·) c d) :=
  next_ordering exModel 2 (by decide)

/-- C4: Exhaustion is terminal, idempotent and signalled on the normal
return channel — a solver whose production is exhausted answers every
further `next()` call with the empty result and an unchanged state, and
every call past the end of the production returns the empty result.
`SpaceSolver.next` is a total function into plain pairs, so no exception
or error channel is involved. -/
theorem next_exhaustion :
    (∀ s : SpaceSolver, s.remaining = [] → s.next = ([], ⟨[]⟩) ∧ s.next.2 = s) ∧
    (∀ (m : Model) (k : Nat), (initSolver m).remaining.length ≤ k →
      (initSolver m).outputAt k = []) := by
  constructor
  · intro s hs
    obtain ⟨rem⟩ := s
    have he : rem = [] := hs
    subst he
    exact ⟨rfl, rfl⟩
  · intro m k hk
    rw [outputAt_eq]
    exact List.getD_eq_default _ _ hk

/-- Witness for C4: on the exhausted solver of the unsatisfiable example,
`next()` returns the empty result with unchanged state, and so does the
sixth call. -/
theorem next_exhaustion_holds :
    ((initSolver exUnsat).next = ([], ⟨[]⟩) ∧ (initSolver exUnsat).next.2 = initSolver exUnsat) ∧
      (initSolver exUnsat).outputAt 5 = [] :=
  ⟨next_exhaustion.1 (initSolver exUnsat) (by decide), next_exhaustion.2 exUnsat 5 (by decide)⟩

/-- C5: Bound monotonicity — tightening one species' admissible bound via
`boundSpecie` strictly before the search starts never increases the number
of produced configurations, and every configuration produced under the
tightened bounds assigns that species a value of at most the tightening
ceiling. -/
theorem boundSpecie_monotone (m : Model) (bounds : List Int) (i : Nat) (b : Int) :
    (search m [] (boundSpecie bounds i b)).length ≤ (search m [] bounds).length ∧
    (∀ c, c ∈ search m [] (boundSpecie bounds i b) → i < bounds.length → c.getD i 0 ≤ b) := by
  constructor
  · rw [solutions_eq_filter, solutions_eq_filter]
    exact ((allConfigs_sublist (boundSpecie_le bounds i b)).filter _).length_le
  · intro c hc hi
    rw [solutions_eq_filter, List.mem_filter, mem_allConfigs] at hc
    have hlen : i < (boundSpecie bounds i b).length := by
      rw [boundSpecie, List.length_set]
      exact hi
    have h2 := forall₂_getD hc.1 hlen
    have heq : (boundSpecie bounds i b).getD i 0 = min (bounds.getD i 0) b := by
      rw [boundSpecie, List.getD_eq_getElem?_getD, List.getElem?_set, if_pos rfl, if_pos hi]
      rfl
    rw [heq] at h2
    exact le_trans h2.2 (min_le_right _ _)

/-- Witness for C5 at the spec's second example: bounding species `A` of
the mirror model to the single value 0 keeps the count non-increasing, and
the surviving steady state `[0, 0]` respects the tightened bound. -/
theorem boundSpecie_monotone_holds :
    (search exModel [] (boundSpecie [1, 1] 0 0)).length ≤ (search exModel [] [1, 1]).length ∧
      ([0, 0] : List Int).getD 0 0 ≤ 0 :=
  ⟨(boundSpecie_monotone exModel [1, 1] 0 0).1,
    (boundSpecie_monotone exModel [1, 1] 0 0).2 [0, 0] (by decide) (by decide)⟩

/-- C6: Unsatisfiability is not an error — when no configuration within
the initial bounds is a steady state, the very first `next()` call already
returns the empty result with the solver exhausted, and every call returns
the empty result; `next` is a total function, so nothing is raised on any
error channel. -/
theorem unsat_yields_nothing (m : Model)
    (h : (allConfigs (initBounds m)).filter (isSteady m) = []) :
    (initSolver m).next = ([], ⟨[]⟩) ∧ ∀ k, (initSolver m).outputAt k = [] := by
  have hrem : search m [] (initBounds m) = [] := by
    rw [solutions_eq_filter, h]
  constructor
  · rw [show initSolver m = SpaceSolver.mk (search m [] (initBounds m)) from rfl, hrem]
    rfl
  · intro k
    rw [outputAt_eq]
    rw [show (initSolver m).remaining = search m [] (initBounds m) from rfl, hrem]
    exact List.getD_eq_default _ _ (by simp)

/-- Witness for C6: the model whose single rule forces an out-of-range
value has no steady state, and its first `next()` call returns the empty
result. -/
theorem unsat_yields_nothing_holds :
    (initSolver exUnsat).next = ([], ⟨[]⟩) ∧ (initSolver exUnsat).outputAt 0 = [] :=
  ⟨(unsat_yields_nothing exUnsat (by decide)).1, (unsat_yields_nothing exUnsat (by decide)).2 0⟩

/-- C7: Empty-domain bound is a reported initialisation error — if the
first species whose `boundSpecie` restriction empties its admissible set
is species `j`, then solver initialisation stops at `j` and returns the
error naming that species; no solver (hence no search) is ever
constructed. -/
theorem emptyBound_reported (m : Model) (j : Nat) (hj : j < m.species.length)
    (hempty : min m.max_value ((m.species.getD j default).max_val) < 0)
    (hfirst : ∀ k, k < j → 0 ≤ min m.max_value ((m.species.getD k default).max_val)) :
    initSolverChecked m = Except.error (emptyDomainMsg j) := by
  rw [initSolverChecked]
  have hrep : ∀ t : Nat, t < m.species.length →
      (List.replicate m.species.length m.max_value).getD t 0 = m.max_value := by
    intro t ht
    rw [List.getD_eq_getElem _ _ (by simpa using ht)]
    simp
  have h1 : min ((List.replicate m.species.length m.max_value).getD (0 + j) 0)
      ((m.species.getD j default).max_val) < 0 := by
    rw [Nat.zero_add, hrep j hj]
    exact hempty
  have h2 : ∀ k, k < j → 0 ≤ min ((List.replicate m.species.length m.max_value).getD (0 + k) 0)
      ((m.species.getD k default).max_val) := by
    intro k hk
    rw [Nat.zero_add, hrep k (lt_trans hk hj)]
    exact hfirst k hk
  have h := applyBoundsChecked_error m.species
    (List.replicate m.species.length m.max_value) 0 j hj h1 h2
  rw [Nat.zero_add] at h
  rw [h]
  rfl

/-- Witness for C7: the model whose single species declares the ceiling
`-1` is rejected at initialisation with the error naming species 0. -/
theorem emptyBound_reported_holds :
    initSolverChecked exInfeasible = Except.error (emptyDomainMsg 0) :=
  emptyBound_reported exInfeasible 0 (by decide) (by decide)
    (fun k hk => absurd hk (Nat.not_lt_zero k))

/-- C8 counterexample: on the one-line model built through `exObtain`
(one species with domain `[0, 1]`), `parseModel` sets `max_value` to 1,
while the maximum over the species of the domain size (`specDomainSize`,
the number of values in the closed domain `[0, max_val]`) is 2 — so
`max_value` is not the maximum domain size. -/
theorem max_value_not_domain_size :
    (parseModel exObtain ["r"]).map Model.max_value = some 1 ∧
    (parseModel exObtain ["r"]).map
        (fun m => (m.species.map specDomainSize).foldl max 0) = some 2 ∧
    (1 : Int) ≠ 2 :=
  ⟨rfl, rfl, by decide⟩

/-- C8 amended: for every model built by `parseModel`, `max_value` is the
maximum over all species of that species' `max_val` — the maximum domain
upper bound, which is the maximum domain size minus one. -/
theorem max_value_is_max_bound (f : String → Specie) (content : List String) (m : Model)
    (h : parseModel f content = some m) :
    (∃ s ∈ m.species, m.max_value = s.max_val) ∧ ∀ s ∈ m.species, s.max_val ≤ m.max_value := by
  unfold parseModel at h
  cases hme : maxElement (content.map f) with
  | none =>
    rw [hme] at h
    exact absurd h (by simp)
  | some best =>
    rw [hme] at h
    have h2 := Option.some.inj h
    obtain ⟨hmem, hall⟩ := maxElement_spec hme
    rw [← h2]
    exact ⟨⟨best, hmem, rfl⟩, hall⟩

/-- Witness for C8 amended, at the concrete one-line model. -/
theorem max_value_is_max_bound_holds :
    (∃ s ∈ [exObtain "r"], (1 : Int) = s.max_val) ∧
      ∀ s ∈ [exObtain "r"], s.max_val ≤ (1 : Int) :=
  max_value_is_max_bound exObtain ["r"] ⟨"", [exObtain "r"], 1⟩ rfl

/-- C9: Species order is sorted-rule-line order — `obtainModel` sorts the
rule lines lexicographically before building the model, so the species
list is the image under the line parser of the sorted permutation of the
file's lines: species indices follow the lexicographic order of the rule
lines, not the order in which they appear in the file. -/
theorem species_follow_sorted_lines (f : String → Specie) (stem : String)
    (content : List String) (h : content ≠ []) :
    ∃ m, obtainModel f stem content = some m ∧
      m.species = (List.insertionSort (fun a b => a ≤ b) content).map f ∧
      (List.insertionSort (fun a b => a ≤ b) content).Sorted (fun a b => a ≤ b) ∧
      (List.insertionSort (fun a b => a ≤ b) content).Perm content := by
  have hne : List.insertionSort (fun a b => a ≤ b) content ≠ [] := by
    intro hn
    apply h
    have hperm := List.perm_insertionSort (fun a b => a ≤ b) content
    rw [hn] at hperm
    exact (List.Perm.nil_eq hperm).symm
  obtain ⟨m0, hm0, hs⟩ := parseModel_some f (List.insertionSort (fun a b => a ≤ b) content) hne
  refine ⟨{ m0 with name := stem }, ?_, hs, ?_, ?_⟩
  · rw [obtainModel, hm0]
    rfl
  · exact List.sorted_insertionSort _ content
  · exact List.perm_insertionSort _ content

/-- Witness for C9: for the two-line file `["b", "a"]` the species follow
the sorted order `["a", "b"]`, not the file order. -/
theorem species_follow_sorted_lines_holds :
    ∃ m, obtainModel exObtain "mm" ["b", "a"] = some m ∧
      m.species = (List.insertionSort (fun a b => a ≤ b) ["b", "a"]).map exObtain ∧
      (List.insertionSort (fun a b => a ≤ b) ["b", "a"]).Sorted (fun a b => a ≤ b) ∧
      (List.insertionSort (fun a b => a ≤ b) ["b", "a"]).Perm ["b", "a"] :=
  species_follow_sorted_lines exObtain "mm" ["b", "a"] (by decide)

/-- C10: `parseModel` is well-defined exactly on non-empty rule-line
lists — with at least one rule line the species list is non-empty, the
`max_element` dereference is valid and a model is returned; on the empty
list the dereference has no valid result (modelled as `none`), and the
code contains no guard for that case. -/
theorem parseModel_total_iff (f : String → Specie) (content : List String) :
    (parseModel f content).isSome = true ↔ content ≠ [] := by
  cases content with
  | nil => simp [parseModel, maxElement]
  | cons a rest => simp [parseModel, maxElement]

example : search exModel [] [1, 1] = [[0, 0], [1, 1]] := by decide

example : initBounds exModel = [1, 1] := by decide

example : (initSolver exModel).remaining = [[0, 0], [1, 1]] := by decide

example : allConfigs [1, 1] = [[0, 0], [0, 1], [1, 0], [1, 1]] := by decide

end MuSyCoS
